import Mathlib

/-!
Verification development for the three search cores of the repository:

* `src/hollow_nogo_MCTS/agent.h` — MCTS with RAVE for 9×9 NoGo,
* `src/hollow_nogo_Parallel_MCTS/agent.h` — root-parallel MCTS for NoGo,
* `src/2048_expectimax/agent.h` — n-tuple-network expectimax for 2048.

The board primitives (`board.h`, `action.h`) are external collaborators and
are deliberately out of scope of the specification, which treats them as an
opaque board capability. Accordingly the NoGo board is abstracted as a type
`β` together with a `BoardOps β` record (`place` returning the updated board
on a legal move and nothing otherwise, and `turn` giving the side to move),
and the 2048 slide primitive is abstracted as a `SlideFn`. The agent code
under `src/` is polymorphic in these capabilities, so every theorem below
quantifies over them (or instantiates them with a concrete toy capability for
a closed evaluation).

C++ `float` arithmetic is modelled by exact rational arithmetic over `ℚ`;
`-std::numeric_limits<float>::max()` is the exact rational `negFltMax`.
Counters (`win_cnt`, `total_cnt`, the RAVE tallies) are C++ `int`s that are
only ever incremented from zero, and are modelled as `ℕ` where the code keeps
them non-negative (and as `ℤ` where a claim is about the raw function).
-/

/-- Piece colors of the NoGo board capability (`board::black`, `board::white`;
`board::empty` never reaches the search code paths modelled here). -/
inductive Piece where
  | black : Piece
  | white : Piece
deriving DecidableEq, Repr

/-- The NoGo board capability used by both MCTS variants, as the spec's §6
requires it: `place b p = some b'` models `place(p) == board::legal` with
`b'` the committed board (turn flipped inside), `none` models a non-legal
code with the board unchanged; `turn` models `info().who_take_turns`. -/
structure BoardOps (β : Type) where
  place : β → ℕ → Option β
  turn : β → Piece

/-- MCTS tree node, from `class node : board` of both variants: the owned
board snapshot, the originating move (`place_pos`, `-1` at the root), the two
visit counters, and the owned child list.  The parent pointer of the source
is represented by the tree structure itself (a child's parent is the node
whose `child` list holds it). -/
structure GTree (β : Type) where
  state : β
  place_pos : ℤ
  win_cnt : ℕ
  total_cnt : ℕ
  child : List (GTree β)

/-- The scan of `node::expand_from_leaf` (RAVE variant lines 237–258,
parallel variant lines 268–289): walk the randomly ordered positions and
return the first one the board accepts, together with the board after the
move; `none` when no position is legal. -/
def firstLegal {β : Type} (ops : BoardOps β) (b : β) : List ℕ → Option (ℕ × β)
  | [] => none
  | i :: rest =>
    match ops.place b i with
    | some b' => some (i, b')
    | none => firstLegal ops b rest

/-- Expansion at a frontier leaf, from `node::expand_from_leaf` of both MCTS
variants: the first legal position of the shuffled order `order` (the source
shuffles `[0,81)`; here the order is an explicit argument) is applied to the
leaf's board and attached as a fresh child with both counters zero; when no
position is legal the node is returned unchanged (`return this`).  The
second component reports the attached move and board (`none` = the leaf
itself was returned). -/
def expand_from_leaf {β : Type} (ops : BoardOps β) (t : GTree β) (order : List ℕ) :
    GTree β × Option (ℕ × β) :=
  match firstLegal ops t.state order with
  | none => (t, none)
  | some (pos, b') =>
    ({ t with child := t.child ++ [⟨b', (pos : ℤ), 0, 0, []⟩] }, some (pos, b'))

/-- Node record for the standalone embedding of `node::back_propagate`:
the originating move, the two counters (raw C++ `int`s, hence `ℤ`), and the
side to move at the node's own board (recorded only to express that backup
never reads it). -/
structure NodeRec where
  place_pos : ℤ
  win_cnt : ℤ
  total_cnt : ℤ
  turn : Piece

/-- Backup, from `node::back_propagate` (RAVE variant lines 296–305, parallel
variant lines 327–334): every node of the backed-up path gets
`total_cnt += 1`, and `win_cnt += 1` exactly when the simulated winner equals
`info().who_take_turns` of the object the method runs on — the root of the
search — passed here as `rootTurn`.  The RAVE table writes of the RAVE
variant are modelled in `mcts_iter` below. -/
def back_propagate (path : List NodeRec) (winner rootTurn : Piece) : List NodeRec :=
  path.map fun n =>
    { n with
      total_cnt := n.total_cnt + 1,
      win_cnt := if winner = rootTurn then n.win_cnt + 1 else n.win_cnt }

/-- The RAVE blend constant `RAVE_Beta`, set to `0.5` by the node
constructor of the RAVE variant (line 119). -/
def RAVE_Beta : ℚ := 1 / 2

/-- Node value of the RAVE variant, from `node::win_rate` (lines 121–134):
an early `0.0` return when `win_cnt == 0 && total_cnt == 0`, otherwise
`(1 - RAVE_Beta) * (win_cnt / total_cnt) + RAVE_Beta *
(rave_win[place_pos] / rave_total[place_pos])` — with no guard of its own on
either denominator.  Rational division by zero yields `0` here where C++
float division yields an infinity; every theorem about this function keeps
its denominators nonzero, so the discrepancy is never exercised. -/
def win_rate (win_cnt total_cnt : ℤ) (place_pos : ℤ)
    (rave_total rave_win : ℤ → ℤ) : ℚ :=
  if win_cnt = 0 ∧ total_cnt = 0 then 0
  else
    (1 - RAVE_Beta) * ((win_cnt : ℚ) / (total_cnt : ℚ)) +
      RAVE_Beta * ((rave_win place_pos : ℚ) / (rave_total place_pos : ℚ))

/-- Node value of the parallel variant, from its `node::win_rate`
(lines 150–156): the same both-zero early return, then `win_cnt / total_cnt`
with no RAVE term. -/
def win_rate_par (win_cnt total_cnt : ℤ) : ℚ :=
  if win_cnt = 0 ∧ total_cnt = 0 then 0
  else (win_cnt : ℚ) / (total_cnt : ℚ)

/-- The blended node value exactly as the specification words it (§4.B1):
`Q` is `0` when `total_cnt = 0` and `win_cnt / total_cnt` otherwise, `Q~` is
`rave_win[place_pos] / rave_total[place_pos]` when `rave_total > 0` and `0`
otherwise, and the value is `(1 - β) Q + β Q~`.  Stated from the spec's
words, to be compared against `win_rate` as the source defines it. -/
def win_rate_spec (win_cnt total_cnt : ℤ) (place_pos : ℤ)
    (rave_total rave_win : ℤ → ℤ) : ℚ :=
  (1 - RAVE_Beta) * (if total_cnt = 0 then 0 else (win_cnt : ℚ) / (total_cnt : ℚ)) +
    RAVE_Beta *
      (if 0 < rave_total place_pos
        then (rave_win place_pos : ℚ) / (rave_total place_pos : ℚ) else 0)

/-- One oracle record per MCTS iteration: the child indices the UCB selection
walks (the scores are computed with `std::sqrt`/`std::log` floats, so the
walk is kept abstract — any descent through child links over-approximates
it), the shuffled position order `all_space` produces for the expansion, and
the winner `simulate_winner` returns for the random playout. -/
structure Orc where
  dirs : List ℕ
  order : List ℕ
  winner : Piece

/-- End-of-path step of one MCTS iteration, inlining `expand_from_leaf`
followed by the backup of the path's tail: when the order holds a legal
position, a fresh child is attached and immediately backed up
(`path.push_back(expand_node)` in `node::MCTS`), so it ends with
`total_cnt = 1` and `win_cnt = 1` exactly when the winner matched the root's
side; otherwise the leaf alone ends the path.  The second component lists
the `place_pos` values of the path nodes handled here — precisely the
indices at which `back_propagate` increments `rave_total` (and, on a win,
`rave_win`). -/
def iter_leaf {β : Type} (ops : BoardOps β) (winner rootTurn : Piece)
    (order : List ℕ) (t : GTree β) : GTree β × List ℤ :=
  match firstLegal ops t.state order with
  | none =>
    ({ t with
        win_cnt := t.win_cnt + (if winner = rootTurn then 1 else 0),
        total_cnt := t.total_cnt + 1 },
      [t.place_pos])
  | some (pos, b') =>
    ({ t with
        win_cnt := t.win_cnt + (if winner = rootTurn then 1 else 0),
        total_cnt := t.total_cnt + 1,
        child := t.child ++
          [⟨b', (pos : ℤ), (if winner = rootTurn then 1 else 0), 1, []⟩] },
      [t.place_pos, (pos : ℤ)])

/-- One MCTS iteration of `node::MCTS` (RAVE variant lines 146–174; the
parallel variant's loop is identical on the tree and merely omits the RAVE
writes): descend along the oracle's child indices collecting the path
(`select_root_to_leaf` always starts at the root and follows child links),
expand at the path's last node, and back up the whole path — every visited
node gets `total_cnt += 1` and conditionally `win_cnt += 1` against the
root's side.  Returns the updated tree and the `place_pos` list of the
backed-up path, which is exactly the index list of the RAVE table writes. -/
def mcts_iter {β : Type} (ops : BoardOps β) (winner rootTurn : Piece)
    (order : List ℕ) : List ℕ → GTree β → GTree β × List ℤ
  | [] => fun t => iter_leaf ops winner rootTurn order t
  | i :: rest => fun t =>
    if h : i < t.child.length then
      let r := mcts_iter ops winner rootTurn order rest (t.child.get ⟨i, h⟩)
      ({ t with
          win_cnt := t.win_cnt + (if winner = rootTurn then 1 else 0),
          total_cnt := t.total_cnt + 1,
          child := t.child.set i r.1 },
        t.place_pos :: r.2)
    else iter_leaf ops winner rootTurn order t

/-- Increment a RAVE table at every index of a write list (one increment per
occurrence), as the backup loop does.  The tables are 81-entry `int` vectors
in the source; they are modelled as total maps `ℤ → ℕ` so that the write at
the root's sentinel index `-1` — an out-of-bounds vector access in the C++ —
is itself observable (see the C1 theorem). -/
def bump (f : ℤ → ℕ) (l : List ℤ) : ℤ → ℕ :=
  fun i => f i + l.count i

/-- One full iteration on the search state (tree, `rave_total`, `rave_win`),
from the loop body of `node::MCTS`: the tree and path are produced by
`mcts_iter`, `rave_total` is incremented at every path position, and
`rave_win` at every path position when the winner matches the root's side. -/
def run_iter {β : Type} (ops : BoardOps β) (rootTurn : Piece)
    (st : GTree β × (ℤ → ℕ) × (ℤ → ℕ)) (o : Orc) :
    GTree β × (ℤ → ℕ) × (ℤ → ℕ) :=
  let r := mcts_iter ops o.winner rootTurn o.order o.dirs st.1
  (r.1, bump st.2.1 r.2,
    if o.winner = rootTurn then bump st.2.2 r.2 else st.2.2)

/-- A whole `MCTS(N, ...)` run as `player::take_action` of the RAVE variant
sets it up (lines 92–99): a fresh root node over the current board
(`place_pos = -1`, counters zero, no children), both RAVE tables reset to
zero, and one `run_iter` per oracle record (= per loop iteration); the
winner comparison side is `info().who_take_turns` of the root board. -/
def mcts_run {β : Type} (ops : BoardOps β) (s0 : β) (os : List Orc) :
    GTree β × (ℤ → ℕ) × (ℤ → ℕ) :=
  os.foldl (run_iter ops (ops.turn s0)) (⟨s0, -1, 0, 0, []⟩, fun _ => 0, fun _ => 0)

/-- Toy instance of the NoGo board capability for closed evaluations: every
position below 81 is legal and the board carries no information. -/
def unitOps : BoardOps Unit where
  place := fun _ p => if p < 81 then some () else none
  turn := fun _ => Piece.black

/-- C1. In the RAVE MCTS variant, a single iteration (N = 1) from a root
with at least one legal move backs up the path `[root, child]`, and
`back_propagate` increments `rave_total[place_pos]` for every node of that
path — including the root, whose `place_pos` is the sentinel `-1`.  The
RAVE write-index list of the iteration is therefore `[-1, pos]`: it touches
two positions, not one, and the write at `-1` is outside `[0, 81)` (in the
C++, an out-of-bounds `std::vector<int>` access).  This refutes the claim
that only the expanded child's position is touched and that every RAVE
access is in bounds; the code, not the claim's intent, is at fault. -/
theorem rave_backup_root_index_out_of_bounds :
    (mcts_iter unitOps Piece.black Piece.black (List.range 81) []
        (⟨(), -1, 0, 0, []⟩ : GTree Unit)).2 = [-1, 0] ∧
    ¬ (∀ i ∈ (mcts_iter unitOps Piece.black Piece.black (List.range 81) []
        (⟨(), -1, 0, 0, []⟩ : GTree Unit)).2, 0 ≤ i ∧ i < 81) ∧
    (mcts_run unitOps () [⟨[], List.range 81, Piece.black⟩]).2.1 (-1) = 1 := by
  have h1 : (mcts_iter unitOps Piece.black Piece.black (List.range 81) []
      (⟨(), -1, 0, 0, []⟩ : GTree Unit)).2 = [-1, 0] := by rfl
  refine ⟨h1, ?_, by rfl⟩
  intro hall
  have h := hall (-1) (by rw [h1]; exact List.mem_cons_self _ _)
  exact absurd h.1 (by decide)

/-- C3 counterexample. `win_rate` does not compute the spec's guarded blend:
at `win_cnt = 0`, `total_cnt = 0`, `place_pos = 5` with
`rave_total[5] = rave_win[5] = 2`, the source's early return yields `0`
while the claimed formula `(1-β)·Q + β·Q~` yields `β·(2/2) = 1/2`. -/
theorem win_rate_formula_cex :
    win_rate 0 0 5 (fun _ => 2) (fun _ => 2) ≠
      win_rate_spec 0 0 5 (fun _ => 2) (fun _ => 2) := by
  norm_num [win_rate, win_rate_spec, RAVE_Beta]

/-- C3, amended.  `win_rate` of the RAVE variant returns `0` exactly when
both counters are zero (ignoring the RAVE statistics in that case), and
otherwise the unguarded blend
`(1-β)·(win/total) + β·(rave_win[pos]/rave_total[pos])` with `β = 1/2`; the
spec's guarded formula agrees with it whenever `total_cnt > 0` and
`rave_total[place_pos] > 0` (which the C10 invariant supplies at every call
site), and the parallel variant's `win_rate` is the plain win rate under the
same both-zero guard. -/
theorem win_rate_guard_characterization (win total pos : ℤ)
    (rave_total rave_win : ℤ → ℤ) :
    (win = 0 ∧ total = 0 → win_rate win total pos rave_total rave_win = 0) ∧
    (¬(win = 0 ∧ total = 0) →
      win_rate win total pos rave_total rave_win =
        (1 - RAVE_Beta) * ((win : ℚ) / (total : ℚ)) +
          RAVE_Beta * ((rave_win pos : ℚ) / (rave_total pos : ℚ))) ∧
    (0 < total → 0 < rave_total pos →
      win_rate win total pos rave_total rave_win =
        win_rate_spec win total pos rave_total rave_win) ∧
    (win = 0 ∧ total = 0 → win_rate_par win total = 0) ∧
    (¬(win = 0 ∧ total = 0) → win_rate_par win total = (win : ℚ) / (total : ℚ)) := by
  refine ⟨?_, ?_, ?_, ?_, ?_⟩
  · intro h; simp [win_rate, h]
  · intro h; simp [win_rate, h]
  · intro ht hr
    have h : ¬(win = 0 ∧ total = 0) := by rintro ⟨-, rfl⟩; exact absurd ht (by simp)
    have ht' : total ≠ 0 := by omega
    simp [win_rate, win_rate_spec, h, ht', hr]
  · intro h; simp [win_rate_par, h]
  · intro h; simp [win_rate_par, h]

/-- C3 witness: the amended characterization evaluated at the concrete node
state `win = 1`, `total = 2`, `place_pos = 5`, `rave_total ≡ 4`,
`rave_win ≡ 3`, where `win_rate` is `(1/2)·(1/2) + (1/2)·(3/4) = 5/8`. -/
theorem win_rate_guard_characterization_witness :
    win_rate 1 2 5 (fun _ => 4) (fun _ => 3) =
      (1 - RAVE_Beta) * ((1 : ℚ) / 2) + RAVE_Beta * ((3 : ℚ) / 4) := by
  have h := (win_rate_guard_characterization 1 2 5 (fun _ => 4) (fun _ => 3)).2.1
    (by decide)
  simpa using h

/-- C7. The backup of both MCTS variants increments `total_cnt` of every
path node and increments `win_cnt` of a path node exactly when the simulated
winner equals the root's side to move (`rootTurn`); the node's own recorded
side (`turn`) plays no role, as the final conjunct makes explicit by letting
backup commute with any rewrite of the per-node sides. -/
theorem back_propagate_root_perspective (path : List NodeRec)
    (winner rootTurn : Piece) (i : ℕ) (n : NodeRec) (h : path[i]? = some n) :
    ∃ m, (back_propagate path winner rootTurn)[i]? = some m ∧
      m.place_pos = n.place_pos ∧
      m.turn = n.turn ∧
      m.total_cnt = n.total_cnt + 1 ∧
      (m.win_cnt = n.win_cnt + 1 ↔ winner = rootTurn) ∧
      (winner ≠ rootTurn → m.win_cnt = n.win_cnt) ∧
      ∀ t : Piece,
        back_propagate (path.map fun k => { k with turn := t }) winner rootTurn =
          (back_propagate path winner rootTurn).map fun k => { k with turn := t } := by
  refine ⟨{ n with
      total_cnt := n.total_cnt + 1,
      win_cnt := if winner = rootTurn then n.win_cnt + 1 else n.win_cnt },
    ?_, rfl, rfl, rfl, ?_, ?_, ?_⟩
  · simp [back_propagate, List.getElem?_map, h]
  · by_cases hw : winner = rootTurn <;> simp [hw]
  · intro hw; simp [hw]
  · intro t
    simp only [back_propagate, List.map_map]
    rfl

/-- Concrete two-node path for the C7 witness. -/
def c7path : List NodeRec := [⟨3, 0, 0, Piece.white⟩, ⟨5, 1, 2, Piece.black⟩]

/-- C7 witness: the backup characterization evaluated on the concrete path
`c7path` at index 1, with the winner and the root side both black. -/
theorem back_propagate_root_perspective_witness :
    ∃ m, (back_propagate c7path Piece.black Piece.black)[1]? = some m ∧
      m.place_pos = (5 : ℤ) ∧
      m.turn = Piece.black ∧
      m.total_cnt = (2 : ℤ) + 1 ∧
      (m.win_cnt = (1 : ℤ) + 1 ↔ Piece.black = Piece.black) ∧
      (Piece.black ≠ Piece.black → m.win_cnt = (1 : ℤ)) ∧
      ∀ t : Piece,
        back_propagate (c7path.map fun k => { k with turn := t })
            Piece.black Piece.black =
          (back_propagate c7path Piece.black Piece.black).map
            fun k => { k with turn := t } :=
  back_propagate_root_perspective c7path
    Piece.black Piece.black 1 ⟨5, 1, 2, Piece.black⟩ (by rfl)

/-- Toy NoGo capability for the C2 counterexample: exactly the positions `0`
and `1` are legal, and a legal move increments the (numeric) board. -/
def dupOps : BoardOps ℕ where
  place := fun b p => if p = 0 ∨ p = 1 then some (b + 1) else none
  turn := fun _ => Piece.black

/-- A frontier leaf that already has a child carrying `place_pos = 0`, while
position `0` is still legal on the leaf's own board (exactly the situation
after one earlier iteration expanded move 0 out of the legal moves
`{0, 1}`). -/
def dupLeaf : GTree ℕ := ⟨0, -1, 0, 0, [⟨1, 0, 1, 1, []⟩]⟩

/-- C2 counterexample. Expansion does not skip moves already present among
the leaf's children: on `dupLeaf` with shuffled order `[0, 1]`, the first
move not already present as a child is `1`, yet `expand_from_leaf` attaches
a second child with `place_pos = 0` (the scan of lines 237–258 / 268–289
tests only board legality), so two children of the same node carry the same
`place_pos`. -/
theorem expand_duplicate_child_cex :
    ((expand_from_leaf dupOps dupLeaf [0, 1]).1.child.map GTree.place_pos)
        = [0, 0] ∧
    ¬ ((expand_from_leaf dupOps dupLeaf [0, 1]).1.child.map
        GTree.place_pos).Nodup ∧
    (expand_from_leaf dupOps dupLeaf [0, 1]).2 = some (0, 1) := by
  have h1 : ((expand_from_leaf dupOps dupLeaf [0, 1]).1.child.map
      GTree.place_pos) = [0, 0] := by rfl
  refine ⟨h1, ?_, by rfl⟩
  rw [h1]; decide

/-- C2, amended.  Expansion at a frontier leaf enumerates the positions in
the given (randomly shuffled) order and attaches as the new child the first
*legal* move of that order — with no check against the moves already present
among the leaf's children, so a duplicate `place_pos` among siblings is
possible — applying it to the leaf's board, attaching the fresh node at the
end of the child list with both counters zero, and appending it to the
backed-up path; when no legal move exists, no child is attached and the
leaf itself remains the end of the path. -/
theorem expand_first_legal_attach {β : Type} (ops : BoardOps β) (t : GTree β)
    (order : List ℕ) (winner rootTurn : Piece) :
    (order.find? (fun i => (ops.place t.state i).isSome) = none →
      expand_from_leaf ops t order = (t, none) ∧
      (mcts_iter ops winner rootTurn order [] t).2 = [t.place_pos]) ∧
    (∀ pos, order.find? (fun i => (ops.place t.state i).isSome) = some pos →
      ∃ b', ops.place t.state pos = some b' ∧
        expand_from_leaf ops t order =
          ({ t with child := t.child ++ [⟨b', (pos : ℤ), 0, 0, []⟩] },
            some (pos, b')) ∧
        (mcts_iter ops winner rootTurn order [] t).2
          = [t.place_pos, (pos : ℤ)]) := by
  have key : ∀ l : List ℕ,
      (firstLegal ops t.state l = none ↔
        l.find? (fun i => (ops.place t.state i).isSome) = none) ∧
      (∀ pos b', firstLegal ops t.state l = some (pos, b') →
        l.find? (fun i => (ops.place t.state i).isSome) = some pos ∧
          ops.place t.state pos = some b') := by
    intro l
    induction l with
    | nil => simp [firstLegal]
    | cons i rest ih =>
      cases hp : ops.place t.state i with
      | none =>
        constructor
        · simpa [firstLegal, List.find?, hp] using ih.1
        · intro pos b' hfl
          have := ih.2 pos b' (by simpa [firstLegal, hp] using hfl)
          simpa [List.find?, hp] using this
      | some b0 =>
        constructor
        · simp [firstLegal, List.find?, hp]
        · intro pos b' hfl
          have h' : i = pos ∧ b0 = b' := by
            simpa [firstLegal, hp] using hfl
          obtain ⟨rfl, rfl⟩ := h'
          simp [List.find?, hp]
  constructor
  · intro hnone
    have hfl : firstLegal ops t.state order = none := by
      rcases h : firstLegal ops t.state order with _ | ⟨pos, b'⟩
      · rfl
      · exact absurd ((key order).2 pos b' h).1 (by simp [hnone])
    constructor
    · simp [expand_from_leaf, hfl]
    · simp [mcts_iter, iter_leaf, hfl]
  · intro pos hsome
    rcases h : firstLegal ops t.state order with _ | ⟨pos', b'⟩
    · exact absurd hsome (by simp [(key order).1.mp h])
    · obtain ⟨hfind, hplace⟩ := (key order).2 pos' b' h
      have hpp : pos' = pos := by
        have := hfind.symm.trans hsome
        simpa using this
      subst hpp
      exact ⟨b', hplace, by simp [expand_from_leaf, h],
        by simp [mcts_iter, iter_leaf, h]⟩

/-- C2 witness: the amended expansion characterization evaluated on
`dupOps` with the shuffled order `[7, 1]`, whose first legal position is
`1`. -/
theorem expand_first_legal_attach_witness :
    ∃ b', dupOps.place dupLeaf.state 1 = some b' ∧
      expand_from_leaf dupOps dupLeaf [7, 1] =
        ({ dupLeaf with
            child := dupLeaf.child ++ [⟨b', (1 : ℤ), 0, 0, []⟩] },
          some (1, b')) ∧
      (mcts_iter dupOps Piece.black Piece.black [7, 1] [] dupLeaf).2
        = [dupLeaf.place_pos, (1 : ℤ)] :=
  (expand_first_legal_attach dupOps dupLeaf [7, 1] Piece.black Piece.black).2
    1 (by rfl)

/-- All-nodes predicate over an MCTS tree: `P` holds at the node itself and
at every node of every subtree. -/
inductive TreeAll {β : Type} (P : GTree β → Prop) : GTree β → Prop where
  | node : ∀ t : GTree β, P t → (∀ c ∈ t.child, TreeAll P c) → TreeAll P t

/-- Weakening for `TreeAll`. -/
theorem TreeAll.mono {β : Type} {P Q : GTree β → Prop} (h : ∀ t, P t → Q t) :
    ∀ {t : GTree β}, TreeAll P t → TreeAll Q t := by
  intro t ht
  induction ht with
  | node t hp hc ih => exact TreeAll.node t (h t hp) ih

/-- `iter_leaf` keeps `win_cnt ≤ total_cnt` at every node: the visited leaf
gains at most one win per visit, and a freshly attached child starts at
`win_cnt ≤ 1 = total_cnt`. -/
theorem iter_leaf_winle {β : Type} (ops : BoardOps β) (winner rootTurn : Piece)
    (order : List ℕ) (t : GTree β)
    (ht : TreeAll (fun n => n.win_cnt ≤ n.total_cnt) t) :
    TreeAll (fun n => n.win_cnt ≤ n.total_cnt)
      (iter_leaf ops winner rootTurn order t).1 := by
  cases ht with
  | node t hp hc =>
    cases hfl : firstLegal ops t.state order with
    | none =>
      simp only [iter_leaf, hfl]
      refine TreeAll.node _ ?_ ?_
      · show t.win_cnt + (if winner = rootTurn then 1 else 0) ≤ t.total_cnt + 1
        split <;> omega
      · exact hc
    | some pb =>
      obtain ⟨pos, b'⟩ := pb
      simp only [iter_leaf, hfl]
      refine TreeAll.node _ ?_ ?_
      · show t.win_cnt + (if winner = rootTurn then 1 else 0) ≤ t.total_cnt + 1
        split <;> omega
      · intro c hcm
        rcases List.mem_append.mp hcm with hmem | hnew
        · exact hc c hmem
        · have hce : c = ⟨b', (pos : ℤ), (if winner = rootTurn then 1 else 0), 1, []⟩ := by
            simpa using hnew
          subst hce
          refine TreeAll.node _ ?_ ?_
          · show (if winner = rootTurn then 1 else 0) ≤ 1
            split <;> omega
          · intro c hcm
            simp at hcm

/-- `mcts_iter` keeps `win_cnt ≤ total_cnt` at every node: backup pairs each
conditional win increment with a visit increment. -/
theorem mcts_iter_winle {β : Type} (ops : BoardOps β) (winner rootTurn : Piece)
    (order : List ℕ) :
    ∀ (dirs : List ℕ) (t : GTree β),
      TreeAll (fun n => n.win_cnt ≤ n.total_cnt) t →
      TreeAll (fun n => n.win_cnt ≤ n.total_cnt)
        (mcts_iter ops winner rootTurn order dirs t).1 := by
  intro dirs
  induction dirs with
  | nil =>
    intro t ht
    exact iter_leaf_winle ops winner rootTurn order t ht
  | cons i rest ih =>
    intro t ht
    cases ht with
    | node t hp hc =>
      by_cases h : i < t.child.length
      · simp only [mcts_iter, dif_pos h]
        refine TreeAll.node _ ?_ ?_
        · show t.win_cnt + (if winner = rootTurn then 1 else 0) ≤ t.total_cnt + 1
          split <;> omega
        · intro c hcm
          rcases List.mem_or_eq_of_mem_set hcm with hmem | hce
        
          · exact hc c hmem
          · subst hce
            exact ih _ (hc _ (List.get_mem _ _ _))
      · simp only [mcts_iter, dif_neg h]
        exact iter_leaf_winle ops winner rootTurn order t (TreeAll.node t hp hc)

/-- C9. In both MCTS variants (the parallel variant's backup is the same
update on the tree, merely without the RAVE writes), after any number of
completed iterations of the search loop every node of the tree satisfies
`0 ≤ win_cnt ≤ total_cnt`: the root and every child are created with both
counters zero, and each backup increments `win_cnt` of a node only when it
also increments that node's `total_cnt`.  The per-iteration selection walk,
expansion order and playout winner are universally quantified (`os`), so the
invariant covers every behavior the floating-point UCB selection and the
random shuffles can produce. -/
theorem mcts_win_le_total_invariant {β : Type} (ops : BoardOps β) (s0 : β)
    (os : List Orc) :
    TreeAll (fun n => 0 ≤ n.win_cnt ∧ n.win_cnt ≤ n.total_cnt)
      (mcts_run ops s0 os).1 := by
  have main : ∀ (os' : List Orc) (st : GTree β × (ℤ → ℕ) × (ℤ → ℕ)),
      TreeAll (fun n => n.win_cnt ≤ n.total_cnt) st.1 →
      TreeAll (fun n => n.win_cnt ≤ n.total_cnt)
        ((os'.foldl (run_iter ops (ops.turn s0)) st)).1 := by
    intro os'
    induction os' with
    | nil => exact fun st h => h
    | cons o rest ih =>
      intro st h
      exact ih _ (mcts_iter_winle ops o.winner (ops.turn s0) o.order o.dirs st.1 h)
  have h0 : TreeAll (fun n : GTree β => n.win_cnt ≤ n.total_cnt)
      (⟨s0, -1, 0, 0, []⟩ : GTree β) := by
    refine TreeAll.node _ (by simp) ?_
    intro c hcm
    simp at hcm
  exact TreeAll.mono (fun t ht => ⟨Nat.zero_le _, ht⟩) (main os _ h0)

/-- The C10 per-node invariant relative to a RAVE `rave_total` table `f`:
the node has been backed up at least once, and the table entry at its
originating move dominates its own visit count. -/
def QQ {β : Type} (f : ℤ → ℕ) (n : GTree β) : Prop :=
  1 ≤ n.total_cnt ∧ n.total_cnt ≤ f n.place_pos

theorem count_self_cons (x : ℤ) (l : List ℤ) : 1 ≤ (x :: l).count x := by
  simp [List.count_cons]

theorem count_cons_ge (x i : ℤ) (l : List ℤ) : l.count i ≤ (x :: l).count i := by
  simp only [List.count_cons]
  split <;> omega

theorem bump_le (f : ℤ → ℕ) (l : List ℤ) (i : ℤ) : f i ≤ bump f l i :=
  Nat.le_add_right _ _

theorem bump_cons_ge (f : ℤ → ℕ) (x : ℤ) (l : List ℤ) (i : ℤ) :
    bump f l i ≤ bump f (x :: l) i :=
  Nat.add_le_add_left (count_cons_ge x i l) _

/-- `QQ` is monotone in the RAVE table. -/
theorem treeAll_qq_mono {β : Type} {f g : ℤ → ℕ} (hfg : ∀ i, f i ≤ g i) :
    ∀ {c : GTree β}, TreeAll (QQ f) c → TreeAll (QQ g) c :=
  fun hc => TreeAll.mono (fun _ ht => ⟨ht.1, le_trans ht.2 (hfg _)⟩) hc

/-- End-of-path step of the C10 invariant: the leaf's position heads the
write list, so its `rave_total` entry grows with its visit count, and a
fresh child is written at its own position in the same backup that gives it
`total_cnt = 1`. -/
theorem iter_leaf_rave_inv {β : Type} (ops : BoardOps β) (winner rootTurn : Piece)
    (order : List ℕ) (t : GTree β) (rt : ℤ → ℕ)
    (h1 : t.total_cnt ≤ rt t.place_pos)
    (h2 : ∀ c ∈ t.child, TreeAll (QQ rt) c) :
    (iter_leaf ops winner rootTurn order t).1.place_pos = t.place_pos ∧
    (iter_leaf ops winner rootTurn order t).1.total_cnt = t.total_cnt + 1 ∧
    (∀ c ∈ (iter_leaf ops winner rootTurn order t).1.child,
      TreeAll (QQ (bump rt (iter_leaf ops winner rootTurn order t).2)) c) ∧
    (iter_leaf ops winner rootTurn order t).1.total_cnt ≤
      bump rt (iter_leaf ops winner rootTurn order t).2 t.place_pos := by
  cases hfl : firstLegal ops t.state order with
  | none =>
    simp only [iter_leaf, hfl]
    refine ⟨trivial, trivial, ?_, ?_⟩
    · intro c hcm
      exact treeAll_qq_mono (bump_le rt _) (h2 c hcm)
    · show t.total_cnt + 1 ≤ rt t.place_pos + List.count t.place_pos [t.place_pos]
      have : 1 ≤ List.count t.place_pos [t.place_pos] := count_self_cons _ _
      omega
  | some pb =>
    obtain ⟨pos, b'⟩ := pb
    simp only [iter_leaf, hfl]
    refine ⟨trivial, trivial, ?_, ?_⟩
    · intro c hcm
      rcases List.mem_append.mp hcm with hmem | hnew
      · exact treeAll_qq_mono (bump_le rt _) (h2 c hmem)
      · have hce : c = ⟨b', (pos : ℤ), (if winner = rootTurn then 1 else 0), 1, []⟩ := by
          simpa using hnew
        subst hce
        refine TreeAll.node _ ⟨le_refl 1, ?_⟩ ?_
        · show 1 ≤ rt (pos : ℤ) + List.count (pos : ℤ) [t.place_pos, (pos : ℤ)]
          have h := count_self_cons (pos : ℤ) ([] : List ℤ)
          have h' := count_cons_ge t.place_pos (pos : ℤ) [(pos : ℤ)]
          omega
        · intro c hcm
          simp at hcm
    · show t.total_cnt + 1 ≤
        rt t.place_pos + List.count t.place_pos [t.place_pos, (pos : ℤ)]
      have : 1 ≤ List.count t.place_pos [t.place_pos, (pos : ℤ)] := count_self_cons _ _
      omega

/-- The C10 invariant is preserved by one whole MCTS iteration: every node
of the backed-up path has its own position in the write list, so `bump`
raises its `rave_total` entry at least as much as its visit count grows. -/
theorem mcts_iter_rave_inv {β : Type} (ops : BoardOps β) (winner rootTurn : Piece)
    (order : List ℕ) :
    ∀ (dirs : List ℕ) (t : GTree β) (rt : ℤ → ℕ),
      t.total_cnt ≤ rt t.place_pos →
      (∀ c ∈ t.child, TreeAll (QQ rt) c) →
      (mcts_iter ops winner rootTurn order dirs t).1.place_pos = t.place_pos ∧
      (mcts_iter ops winner rootTurn order dirs t).1.total_cnt = t.total_cnt + 1 ∧
      (∀ c ∈ (mcts_iter ops winner rootTurn order dirs t).1.child,
        TreeAll (QQ (bump rt (mcts_iter ops winner rootTurn order dirs t).2)) c) ∧
      (mcts_iter ops winner rootTurn order dirs t).1.total_cnt ≤
        bump rt (mcts_iter ops winner rootTurn order dirs t).2 t.place_pos := by
  intro dirs
  induction dirs with
  | nil =>
    intro t rt h1 h2
    exact iter_leaf_rave_inv ops winner rootTurn order t rt h1 h2
  | cons i rest ih =>
    intro t rt h1 h2
    by_cases h : i < t.child.length
    · simp only [mcts_iter, dif_pos h]
      cases hci : h2 (t.child.get ⟨i, h⟩) (List.get_mem _ _ _) with
      | node _ hp hcc =>
        obtain ⟨IH1, IH2, IH3, IH4⟩ :=
          ih (t.child.get ⟨i, h⟩) rt hp.2 hcc
        refine ⟨trivial, trivial, ?_, ?_⟩
        · intro c hcm
          rcases List.mem_or_eq_of_mem_set hcm with hmem | hce
          · exact treeAll_qq_mono (bump_le rt _) (h2 c hmem)
          · subst hce
            refine TreeAll.node _ ⟨?_, ?_⟩ ?_
            · omega
            · have hx := bump_cons_ge rt t.place_pos
                (mcts_iter ops winner rootTurn order rest (t.child.get ⟨i, h⟩)).2
                (mcts_iter ops winner rootTurn order rest (t.child.get ⟨i, h⟩)).1.place_pos
              rw [IH1] at hx ⊢
              exact le_trans (IH1 ▸ IH4) hx
            · intro c hcm
              exact treeAll_qq_mono
                (bump_cons_ge rt t.place_pos _) (IH3 c hcm)
        · show t.total_cnt + 1 ≤
            rt t.place_pos + List.count t.place_pos
              (t.place_pos ::
                (mcts_iter ops winner rootTurn order rest (t.child.get ⟨i, h⟩)).2)
          have := count_self_cons t.place_pos
            (mcts_iter ops winner rootTurn order rest (t.child.get ⟨i, h⟩)).2
          omega
    · simp only [mcts_iter, dif_neg h]
      exact iter_leaf_rave_inv ops winner rootTurn order t rt h1 h2

/-- The C10 soundness statement over a whole run: every non-root node of the
final tree has `total_cnt ≥ 1` and a `rave_total` entry at its own
`place_pos` that dominates `total_cnt` — in particular both are nonzero as
rationals, which are exactly the denominators that `win_rate` (and the UCB
scores built on it) divides by when evaluated on children during selection
and during the final `select_action`. -/
def rave_soundness {β : Type} (res : GTree β × (ℤ → ℕ) × (ℤ → ℕ)) : Prop :=
  ∀ c ∈ res.1.child,
    TreeAll (fun n =>
      (1 ≤ n.total_cnt ∧ ((n.total_cnt : ℚ) ≠ 0)) ∧
      (n.total_cnt ≤ res.2.1 n.place_pos ∧
        ((res.2.1 n.place_pos : ℚ) ≠ 0))) c

/-- C10. After every completed iteration of the RAVE MCTS search loop
(`mcts_run` over any oracle list, i.e. any selection walks, shuffles and
playout winners), every non-root node `n` satisfies `total_cnt ≥ 1` and
`rave_total[place_pos] ≥ total_cnt ≥ 1`: a freshly expanded child is always
on the backed-up path of the iteration that created it, and the same backup
that increments a node's `total_cnt` also increments `rave_total` at its
`place_pos`.  Hence the unguarded divisions of `win_rate` and `ucb` on
children never divide by zero. -/
theorem rave_nonroot_positive_counts {β : Type} (ops : BoardOps β) (s0 : β)
    (os : List Orc) :
    rave_soundness (mcts_run ops s0 os) := by
  have main : ∀ (os' : List Orc) (st : GTree β × (ℤ → ℕ) × (ℤ → ℕ)),
      st.1.total_cnt ≤ st.2.1 st.1.place_pos →
      (∀ c ∈ st.1.child, TreeAll (QQ st.2.1) c) →
      ((os'.foldl (run_iter ops (ops.turn s0)) st).1.total_cnt ≤
        (os'.foldl (run_iter ops (ops.turn s0)) st).2.1
          (os'.foldl (run_iter ops (ops.turn s0)) st).1.place_pos) ∧
      (∀ c ∈ (os'.foldl (run_iter ops (ops.turn s0)) st).1.child,
        TreeAll (QQ ((os'.foldl (run_iter ops (ops.turn s0)) st)).2.1) c) := by
    intro os'
    induction os' with
    | nil => exact fun st hb hc => ⟨hb, hc⟩
    | cons o rest ih =>
      intro st hb hc
      obtain ⟨S1, S2, S3, S4⟩ :=
        mcts_iter_rave_inv ops o.winner (ops.turn s0) o.order o.dirs st.1 st.2.1 hb hc
      refine ih (run_iter ops (ops.turn s0) st o) ?_ S3
      show (mcts_iter ops o.winner (ops.turn s0) o.order o.dirs st.1).1.total_cnt ≤
        bump st.2.1 (mcts_iter ops o.winner (ops.turn s0) o.order o.dirs st.1).2
          (mcts_iter ops o.winner (ops.turn s0) o.order o.dirs st.1).1.place_pos
      rw [S1]
      exact S4
  have h := main os (⟨s0, -1, 0, 0, []⟩, fun _ => 0, fun _ => 0)
    (by simp) (by intro c hcm; simp at hcm)
  intro c hcm
  refine TreeAll.mono (fun n hn => ?_) (h.2 c hcm)
  obtain ⟨hn1, hn2⟩ := hn
  refine ⟨⟨hn1, ?_⟩, hn2, ?_⟩
  · exact Nat.cast_ne_zero.mpr (by omega)
  · have hge : 1 ≤ (mcts_run ops s0 os).2.1 n.place_pos := le_trans hn1 hn2
    exact Nat.cast_ne_zero.mpr (by omega)

/-- Vote tally of the root-parallel `player::take_action` (lines 111–117):
starting from the 81-entry zero vector `vote_result`, every worker result
`v != -1` increments `vote_result[v]`. -/
def tally_votes (votes : List ℤ) : List ℕ :=
  votes.foldl
    (fun acc v => if v = -1 then acc else acc.set v.toNat (acc.getD v.toNat 0 + 1))
    (List.replicate 81 0)

/-- Scanning loop of `std::max_element` over the tail: the running champion
`(bi, bv)` is replaced exactly when a later entry is strictly greater, so
the first occurrence of the maximum wins; `i` is the index of the next
entry. -/
def mef_aux : List ℕ → ℕ → ℕ → ℕ → ℕ × ℕ
  | [], bi, bv, _ => (bi, bv)
  | y :: ys, bi, bv, i =>
    if bv < y then mef_aux ys i y (i + 1) else mef_aux ys bi bv (i + 1)

/-- `std::max_element` over a vector, as index and value of the first
maximum (the iterator starts at the first entry; the empty case never
arises on the 81-entry tally). -/
def max_element_first (l : List ℕ) : ℕ × ℕ :=
  match l with
  | [] => (0, 0)
  | x :: xs => mef_aux xs 0 x 1

/-- Aggregation of the root-parallel `player::take_action` (lines 111–128):
tally the worker results, take the first maximum of the tally, return no
action (`action()`) when that maximum is zero and otherwise the position of
the first maximum (`iter - vote_result.begin()`). -/
def vote_action (votes : List ℤ) : Option ℕ :=
  let vr := tally_votes votes
  let m := max_element_first vr
  if m.2 = 0 then none else some m.1

theorem getD_append_lt (l l2 : List ℕ) (j : ℕ) (h : j < l.length) :
    (l ++ l2).getD j 0 = l.getD j 0 := by
  simp [List.getD_eq_getElem?_getD, List.getElem?_append, h]

theorem getD_append_len (l : List ℕ) (y : ℕ) :
    (l ++ [y]).getD l.length 0 = y := by
  simp [List.getD_eq_getElem?_getD, List.getElem?_append_right, le_refl]

/-- The tally loop computes, at every in-range index `j`, the starting entry
plus the number of worker results equal to `j`; results equal to `-1` are
ignored. -/
theorem tally_step_spec : ∀ (votes : List ℤ) (acc : List ℕ),
    (∀ v ∈ votes, v = -1 ∨ (0 ≤ v ∧ v < 81)) →
    acc.length = 81 →
    (votes.foldl
        (fun acc v => if v = -1 then acc else acc.set v.toNat (acc.getD v.toNat 0 + 1))
        acc).length = 81 ∧
    ∀ j : ℕ, j < 81 →
      (votes.foldl
          (fun acc v => if v = -1 then acc else acc.set v.toNat (acc.getD v.toNat 0 + 1))
          acc).getD j 0 = acc.getD j 0 + votes.count (j : ℤ) := by
  intro votes
  induction votes with
  | nil =>
    intro acc _ hlen
    exact ⟨hlen, fun j _ => by simp⟩
  | cons v rest ih =>
    intro acc hrng hlen
    have hv := hrng v (List.mem_cons_self v rest)
    have hrest : ∀ w ∈ rest, w = -1 ∨ (0 ≤ w ∧ w < 81) :=
      fun w hw => hrng w (List.mem_cons_of_mem v hw)
    rcases hv with hv | hv
    · subst hv
      have h := ih acc hrest hlen
      constructor
      · simpa only [List.foldl_cons, if_pos rfl] using h.1
      · intro j hj
        have hne : (-1 : ℤ) ≠ (j : ℤ) := by omega
        have hc : ((-1 : ℤ) :: rest).count (j : ℤ) = rest.count (j : ℤ) := by
          simp [List.count_cons, hne]
        rw [List.foldl_cons, if_pos rfl, hc]
        exact h.2 j hj
    · have hvne : v ≠ -1 := by omega
      have hlt : v.toNat < 81 := by omega
      have hlen' : (acc.set v.toNat (acc.getD v.toNat 0 + 1)).length = 81 := by
        simpa using hlen
      have h := ih (acc.set v.toNat (acc.getD v.toNat 0 + 1)) hrest hlen'
      constructor
      · simpa only [List.foldl_cons, if_neg hvne] using h.1
      · intro j hj
        rw [List.foldl_cons, if_neg hvne]
        have hstep := h.2 j hj
        by_cases hje : v.toNat = j
        · subst hje
          have hset : (acc.set v.toNat (acc.getD v.toNat 0 + 1)).getD v.toNat 0 =
              acc.getD v.toNat 0 + 1 := by
            simp [List.getD_eq_getElem?_getD, List.getElem?_set, hlen ▸ hlt]
          have hveq : v = ((v.toNat : ℕ) : ℤ) := by omega
          have hc : (v :: rest).count ((v.toNat : ℕ) : ℤ) =
              rest.count ((v.toNat : ℕ) : ℤ) + 1 := by
            simp [List.count_cons, ← hveq]
          rw [← hveq] at hstep hc ⊢
          rw [hc, hstep, hset]
          omega
        · have hset : (acc.set v.toNat (acc.getD v.toNat 0 + 1)).getD j 0 =
              acc.getD j 0 := by
            simp [List.getD_eq_getElem?_getD, List.getElem?_set, hje]
          have hne : v ≠ (j : ℤ) := by omega
          have hc : (v :: rest).count (j : ℤ) = rest.count (j : ℤ) := by
            simp [List.count_cons, hne]
          rw [hc, hstep, hset]

/-- The `std::max_element` scan, characterized against the already scanned
part `l0`: it lands on the value and index of the first maximum of
`l0 ++ ys`. -/
theorem mef_aux_spec : ∀ (ys l0 : List ℕ) (bi bv : ℕ),
    bi < l0.length →
    l0.getD bi 0 = bv →
    (∀ j, j < l0.length → l0.getD j 0 ≤ bv) →
    (∀ j, j < l0.length → l0.getD j 0 = bv → bi ≤ j) →
    (mef_aux ys bi bv l0.length).1 < (l0 ++ ys).length ∧
    (l0 ++ ys).getD (mef_aux ys bi bv l0.length).1 0 = (mef_aux ys bi bv l0.length).2 ∧
    (∀ j, j < (l0 ++ ys).length →
      (l0 ++ ys).getD j 0 ≤ (mef_aux ys bi bv l0.length).2) ∧
    (∀ j, j < (l0 ++ ys).length →
      (l0 ++ ys).getD j 0 = (mef_aux ys bi bv l0.length).2 →
      (mef_aux ys bi bv l0.length).1 ≤ j) := by
  intro ys
  induction ys with
  | nil =>
    intro l0 bi bv hbi hgd hle htie
    simp only [mef_aux, List.append_nil]
    exact ⟨hbi, hgd, hle, htie⟩
  | cons y ys ih =>
    intro l0 bi bv hbi hgd hle htie
    have hassoc : l0 ++ y :: ys = (l0 ++ [y]) ++ ys := by simp
    have hlen1 : (l0 ++ [y]).length = l0.length + 1 := by simp
    by_cases hlt : bv < y
    · have IH := ih (l0 ++ [y]) l0.length y
        (by simp)
        (getD_append_len l0 y)
        (by
          intro j hj
          rcases (by omega : j < l0.length ∨ j = l0.length) with hj' | hj'
          · rw [getD_append_lt l0 [y] j hj']
            exact le_of_lt (lt_of_le_of_lt (hle j hj') hlt)
          · subst hj'
            rw [getD_append_len l0 y])
        (by
          intro j hj hj2
          rcases (by omega : j < l0.length ∨ j = l0.length) with hj' | hj'
          · rw [getD_append_lt l0 [y] j hj'] at hj2
            have := hle j hj'
            omega
          · omega)
      rw [hlen1] at IH
      simp only [mef_aux, if_pos hlt]
      rw [hassoc]
      exact IH
    · have IH := ih (l0 ++ [y]) bi bv
        (by simp; omega)
        (by rw [getD_append_lt l0 [y] bi hbi]; exact hgd)
        (by
          intro j hj
          rcases (by omega : j < l0.length ∨ j = l0.length) with hj' | hj'
          · rw [getD_append_lt l0 [y] j hj']
            exact hle j hj'
          · subst hj'
            rw [getD_append_len l0 y]
            omega)
        (by
          intro j hj hj2
          rcases (by omega : j < l0.length ∨ j = l0.length) with hj' | hj'
          · rw [getD_append_lt l0 [y] j hj'] at hj2
            exact htie j hj' hj2
          · omega)
      rw [hlen1] at IH
      simp only [mef_aux, if_neg hlt]
      rw [hassoc]
      exact IH

/-- C8. Given the per-worker results, the root-parallel aggregation tallies
a histogram over the positions (ignoring `-1` results), returns the position
with the most votes with ties broken by the lowest position index, and
returns no action exactly when every worker returned `-1`.  The range
hypothesis records what `node::MCTS` guarantees about a worker's result:
`-1` or a `place_pos` in `[0, 81)`. -/
theorem parallel_vote_aggregation (votes : List ℤ)
    (hrng : ∀ v ∈ votes, v = -1 ∨ (0 ≤ v ∧ v < 81)) :
    (vote_action votes = none ↔ ∀ v ∈ votes, v = -1) ∧
    (∀ p, vote_action votes = some p →
      p < 81 ∧ 0 < votes.count (p : ℤ) ∧
      (∀ q : ℕ, q < 81 → votes.count (q : ℤ) ≤ votes.count (p : ℤ)) ∧
      (∀ q : ℕ, q < 81 → votes.count (q : ℤ) = votes.count (p : ℤ) → p ≤ q)) := by
  obtain ⟨hlen, hcnt⟩ := tally_step_spec votes (List.replicate 81 0) hrng (by simp)
  have hrep : ∀ j : ℕ, j < 81 → (List.replicate 81 (0 : ℕ)).getD j 0 = 0 := by
    intro j hj
    rw [List.getD_eq_getElem?_getD, List.getElem?_replicate, if_pos hj]
    rfl
  have hcnt' : ∀ j : ℕ, j < 81 → (tally_votes votes).getD j 0 = votes.count (j : ℤ) := by
    intro j hj
    have h0 := hcnt j hj
    rw [hrep j hj] at h0
    simpa only [Nat.zero_add] using h0
  have hlen' : (tally_votes votes).length = 81 := hlen
  rcases htv : tally_votes votes with _ | ⟨x, xs⟩
  · rw [htv] at hlen'; simp at hlen'
  · rw [htv] at hlen' hcnt'
    have hmef := mef_aux_spec xs [x] 0 x (by simp) (by simp)
      (by
        intro j hj
        have hj0 : j = 0 := by simp at hj; omega
        subst hj0
        simp)
      (by intro j hj hje; omega)
    have hx : ([x] : List ℕ) ++ xs = x :: xs := by simp
    rw [hx] at hmef
    have hone : ([x] : List ℕ).length = 1 := by simp
    rw [hone] at hmef
    obtain ⟨m1, m2, m3, m4⟩ := hmef
    have hva : vote_action votes =
        if (mef_aux xs 0 x 1).2 = 0 then none else some (mef_aux xs 0 x 1).1 := by
      simp only [vote_action, htv, max_element_first]
    constructor
    · constructor
      · intro hnone
        have hz : (mef_aux xs 0 x 1).2 = 0 := by
          by_contra hnz
          rw [hva, if_neg hnz] at hnone
          exact absurd hnone (by simp)
        intro v hv
        rcases hrng v hv with hv' | hv'
        · exact hv'
        · exfalso
          have hjlt : v.toNat < 81 := by omega
          have hc : (x :: xs).getD v.toNat 0 = votes.count ((v.toNat : ℕ) : ℤ) :=
            hcnt' v.toNat hjlt
          have hpos : 0 < votes.count ((v.toNat : ℕ) : ℤ) := by
            apply List.count_pos_iff.mpr
            have : ((v.toNat : ℕ) : ℤ) = v := by omega
            rw [this]; exact hv
          have hle81 : v.toNat < (x :: xs).length := by omega
          have := m3 v.toNat hle81
          omega
      · intro hall
        have hz : ∀ j, j < 81 → (x :: xs).getD j 0 = 0 := by
          intro j hj
          rw [hcnt' j hj]
          by_contra hnz
          have hpos : 0 < votes.count ((j : ℕ) : ℤ) := by omega
          obtain hmem := List.count_pos_iff.mp hpos
          rcases hall _ hmem with h
          omega
        have h2 : (mef_aux xs 0 x 1).2 = 0 := by
          have hlt : (mef_aux xs 0 x 1).1 < 81 := by
            have := m1; omega
          have := hz (mef_aux xs 0 x 1).1 hlt
          omega
        rw [hva, if_pos h2]
    · intro p hp
      have hnz : (mef_aux xs 0 x 1).2 ≠ 0 := by
        by_contra hz
        rw [hva, if_pos hz] at hp
        exact absurd hp (by simp)
      rw [hva, if_neg hnz] at hp
      have hpe : (mef_aux xs 0 x 1).1 = p := by
        simpa using hp
      subst hpe
      have hp81 : (mef_aux xs 0 x 1).1 < 81 := by
        have := m1; omega
      refine ⟨hp81, ?_, ?_, ?_⟩
      · have := hcnt' (mef_aux xs 0 x 1).1 hp81
        omega
      · intro q hq
        have hqlen : q < (x :: xs).length := by omega
        have := m3 q hqlen
        rw [hcnt' q hq] at this
        rw [hcnt' (mef_aux xs 0 x 1).1 hp81] at m2
        omega
      · intro q hq heq
        have hqlen : q < (x :: xs).length := by omega
        apply m4 q hqlen
        rw [hcnt' q hq]
        rw [hcnt' (mef_aux xs 0 x 1).1 hp81] at m2
        omega

/-- Worker results of the spec's scenario S6. -/
def c8votes : List ℤ := [17, 17, 42, 17]

/-- C8 witness: the aggregation theorem evaluated on the scenario-S6 worker
results `[17, 17, 42, 17]`, whose aggregated move is `17`. -/
theorem parallel_vote_aggregation_witness :
    vote_action c8votes = some 17 ∧
    ((vote_action c8votes = none ↔ ∀ v ∈ c8votes, v = -1) ∧
      (∀ p, vote_action c8votes = some p →
        p < 81 ∧ 0 < c8votes.count (p : ℤ) ∧
        (∀ q : ℕ, q < 81 → c8votes.count (q : ℤ) ≤ c8votes.count (p : ℤ)) ∧
        (∀ q : ℕ, q < 81 → c8votes.count (q : ℤ) = c8votes.count (p : ℤ) → p ≤ q))) :=
  ⟨by decide, parallel_vote_aggregation c8votes (by decide)⟩

/-- The 2048 board: sixteen cells in row-major order, each holding a tile
exponent.  Modelled from the spec: the board capability of §6 ("sixteen
cells addressed 0..15", cell values in `[0,16)`; the invariance theorems
below hold for arbitrary natural cell values). -/
def Board2048 : Type := Fin 16 → ℕ

/-- Index mapping of a clockwise quarter-turn on the 4×4 grid.  Modelled
from the spec: `rotate_right()` of §6 preserves the tile multiset up to
rotation; in row-major coordinates the rotated board reads its cell
`(r, c)` from the old cell `(3 - c, r)`. -/
def rotIdx (p : Fin 16) : Fin 16 :=
  ⟨4 * (3 - p.val % 4) + p.val / 4, by omega⟩

/-- Index mapping of the left-right mirror on the 4×4 grid.  Modelled from
the spec: `reflect_horizontal()` of §6; the mirrored board reads its cell
`(r, c)` from the old cell `(r, 3 - c)`. -/
def reflIdx (p : Fin 16) : Fin 16 :=
  ⟨4 * (p.val / 4) + (3 - p.val % 4), by omega⟩

/-- Modelled from the spec: the in-place `rotate_right()` board primitive
(§6), as the board transformation it performs. -/
def rotate_right (b : Board2048) : Board2048 := fun p => b (rotIdx p)

/-- Modelled from the spec: the in-place `reflect_horizontal()` board
primitive (§6). -/
def reflect_horizontal (b : Board2048) : Board2048 := fun p => b (reflIdx p)

/-- Feature index of a 6-tuple, from `player::extract_feature6`
(lines 149–159): the base-16 packing of the six cell values, most
significant first. -/
def extract_feature6 (after : Board2048) (a b c d e f : Fin 16) : ℕ :=
  after a * (16 * 16 * 16 * 16 * 16) +
    after b * (16 * 16 * 16 * 16) +
    after c * (16 * 16 * 16) +
    after d * (16 * 16) +
    after e * 16 +
    after f

/-- One round of the four weight-table lookups of `player::estimate_value`
(lines 169–180): the four tuples `(0,1,2,3,4,5)`, `(4,5,6,7,8,9)`,
`(0,1,2,4,5,6)`, `(4,5,6,8,9,10)` looked up in their respective tables.
The weight tables (`net`) are read-only inputs here, as the spec treats
them. -/
def net_lookups (net : Fin 4 → ℕ → ℚ) (b : Board2048) : ℚ :=
  net 0 (extract_feature6 b 0 1 2 3 4 5) +
    net 1 (extract_feature6 b 4 5 6 7 8 9) +
    net 2 (extract_feature6 b 0 1 2 4 5 6) +
    net 3 (extract_feature6 b 4 5 6 8 9 10)

/-- The n-tuple-network value of `player::estimate_value` (lines 162–203):
four lookup rounds interleaved with quarter-turns, one horizontal
reflection, then four more lookup rounds with quarter-turns — 32 table
lookups over the eight isomorphic views of the board.  Each view below is
the mutable board `b` of the source at the moment of the corresponding
lookup round (the final rotation of the second loop touches `b` after its
last read and is dropped). -/
def estimate_value (net : Fin 4 → ℕ → ℚ) (after : Board2048) : ℚ :=
  net_lookups net after +
    net_lookups net (rotate_right after) +
    net_lookups net (rotate_right (rotate_right after)) +
    net_lookups net (rotate_right (rotate_right (rotate_right after))) +
    net_lookups net (reflect_horizontal
      (rotate_right (rotate_right (rotate_right (rotate_right after))))) +
    net_lookups net (rotate_right (reflect_horizontal
      (rotate_right (rotate_right (rotate_right (rotate_right after)))))) +
    net_lookups net (rotate_right (rotate_right (reflect_horizontal
      (rotate_right (rotate_right (rotate_right (rotate_right after))))))) +
    net_lookups net (rotate_right (rotate_right (rotate_right (reflect_horizontal
      (rotate_right (rotate_right (rotate_right (rotate_right after))))))))

theorem rotIdx_four : ∀ p : Fin 16, rotIdx (rotIdx (rotIdx (rotIdx p))) = p := by
  decide

theorem reflIdx_two : ∀ p : Fin 16, reflIdx (reflIdx p) = p := by
  decide

theorem rotIdx_reflIdx : ∀ p : Fin 16,
    rotIdx (reflIdx p) = reflIdx (rotIdx (rotIdx (rotIdx p))) := by
  decide

/-- Four quarter-turns are the identity. -/
theorem rotate_right_four (b : Board2048) :
    rotate_right (rotate_right (rotate_right (rotate_right b))) = b :=
  funext fun p => congrArg b (rotIdx_four p)

/-- Two reflections are the identity. -/
theorem reflect_reflect (b : Board2048) :
    reflect_horizontal (reflect_horizontal b) = b :=
  funext fun p => congrArg b (reflIdx_two p)

/-- The dihedral commutation: reflecting a rotated board is rotating the
reflected board three times. -/
theorem reflect_rotate (b : Board2048) :
    reflect_horizontal (rotate_right b) =
      rotate_right (rotate_right (rotate_right (reflect_horizontal b))) :=
  funext fun p => congrArg b (rotIdx_reflIdx p)

/-- `estimate_value` is unchanged by a quarter-turn of the input: the eight
views are permuted among themselves. -/
theorem estimate_value_rot (net : Fin 4 → ℕ → ℚ) (b : Board2048) :
    estimate_value net (rotate_right b) = estimate_value net b := by
  simp only [estimate_value, rotate_right_four, reflect_rotate]
  ring

/-- `estimate_value` is unchanged by a horizontal reflection of the input:
the two halves of the view list swap. -/
theorem estimate_value_refl (net : Fin 4 → ℕ → ℚ) (b : Board2048) :
    estimate_value net (reflect_horizontal b) = estimate_value net b := by
  simp only [estimate_value, rotate_right_four, reflect_reflect, reflect_rotate]
  ring

/-- An arbitrary element of the dihedral group D₄ as a word over the two
generators: `false` applies `rotate_right`, `true` applies
`reflect_horizontal`. -/
def d4_apply : List Bool → Board2048 → Board2048
  | [], b => b
  | g :: gs, b =>
    d4_apply gs (if g then reflect_horizontal b else rotate_right b)

/-- C4. For every 2048 board and every element of the dihedral group D₄
(any composition of `rotate_right` and `reflect_horizontal`),
`estimate_value` of the transformed board equals `estimate_value` of the
board: the sum of the 32 weight-table lookups over the eight isomorphic
views is invariant, for arbitrary weight tables `net`. -/
theorem estimate_value_d4_invariant (net : Fin 4 → ℕ → ℚ) :
    ∀ (w : List Bool) (b : Board2048),
      estimate_value net (d4_apply w b) = estimate_value net b := by
  intro w
  induction w with
  | nil => intro b; rfl
  | cons g gs ih =>
    intro b
    cases g
    · calc estimate_value net (d4_apply (false :: gs) b)
          = estimate_value net (d4_apply gs (rotate_right b)) := rfl
        _ = estimate_value net (rotate_right b) := ih _
        _ = estimate_value net b := estimate_value_rot net b
    · calc estimate_value net (d4_apply (true :: gs) b)
          = estimate_value net (d4_apply gs (reflect_horizontal b)) := rfl
        _ = estimate_value net (reflect_horizontal b) := ih _
        _ = estimate_value net b := estimate_value_refl net b

/-- The exact rational value of `-std::numeric_limits<float>::max()`, the
initial value of every running maximum in the 2048 player
(`FLT_MAX = (2^24 - 1) · 2^104`). -/
def negFltMax : ℚ := -(2 ^ 128 - 2 ^ 104)

/-- The 2048 slide primitive as the spec's opaque board capability (§6):
`sl b d = some (b', reward)` models `reward = b.slide(d) != -1` with `b'`
the board after the slide, `none` models the illegal `-1` return with the
board unchanged.  The player code under test is polymorphic in it. -/
def SlideFn : Type := Board2048 → Fin 4 → Option (Board2048 × ℕ)

/-- Modelled from the spec: the `place(pos, cell)` board primitive of §6
("set a specific empty cell to a specific value"). -/
def place2048 (b : Board2048) (pos : Fin 16) (c : ℕ) : Board2048 :=
  fun q => if q = pos then c else b q

/-- The empty-cell count of `player::expectation` (lines 207–210): the
number of positions with cell value `0`. -/
def empty_count (after : Board2048) : ℕ :=
  ((List.finRange 16).filter (fun p => after p = 0)).length

/-- The inner maximum of `player::expectation` (lines 219–228 and 231–240):
starting from `-FLT_MAX`, fold over the four directions, skipping illegal
slides and otherwise taking the maximum of `reward + estimate_value` of the
slid board. -/
def val_max_after (sl : SlideFn) (net : Fin 4 → ℕ → ℚ) (b : Board2048) : ℚ :=
  (List.finRange 4).foldl
    (fun acc i =>
      match sl b i with
      | none => acc
      | some (b', reward) => max acc ((reward : ℚ) + estimate_value net b'))
    negFltMax

/-- The values `reward + estimate_value(afterSlide)` of the legal slide
directions of a board, in direction order. -/
def legal_slide_vals (sl : SlideFn) (net : Fin 4 → ℕ → ℚ) (b : Board2048) :
    List ℚ :=
  (List.finRange 4).filterMap fun i =>
    (sl b i).map fun p => (p.2 : ℚ) + estimate_value net p.1

/-- The chance-node expectation of `player::expectation` (lines 205–246):
count the empty cells, then for every empty position place a 2-tile
(value 1) and a 4-tile (value 2), take the best legal `reward +
estimate_value` for each, and accumulate
`(V₂ · 0.9 + V₄ · 0.1) / empty_space`.  When the board has no empty cell
the loop body never runs and the function returns `0`. -/
def expectation (sl : SlideFn) (net : Fin 4 → ℕ → ℚ) (after : Board2048) : ℚ :=
  (List.finRange 16).foldl
    (fun result pos =>
      if after pos ≠ 0 then result
      else
        result +
          (val_max_after sl net (place2048 after pos 1) * (9 / 10) +
            val_max_after sl net (place2048 after pos 2) * (1 / 10)) /
            (empty_count after : ℚ))
    0

/-- A fold that skips non-empty positions and accumulates `g` is the sum of
`g` over the empty positions. -/
theorem foldl_skip_sum (after : Board2048) (g : Fin 16 → ℚ) :
    ∀ (l : List (Fin 16)) (init : ℚ),
      l.foldl (fun result pos => if after pos ≠ 0 then result else result + g pos)
          init =
        init + ((l.filter (fun p => after p = 0)).map g).sum := by
  intro l
  induction l with
  | nil => intro init; simp
  | cons p rest ih =>
    intro init
    by_cases hp : after p = 0
    · rw [List.foldl_cons, if_neg (by simp [hp]), ih,
        List.filter_cons_of_pos (by simp [hp])]
      simp only [List.map_cons, List.sum_cons]
      ring
    · rw [List.foldl_cons, if_pos hp, ih, List.filter_cons_of_neg (by simp [hp])]

/-- The running maximum of the inner loop equals a `max`-fold over the
legal slide values. -/
theorem val_max_eq_foldl_max (sl : SlideFn) (net : Fin 4 → ℕ → ℚ)
    (b : Board2048) :
    val_max_after sl net b = (legal_slide_vals sl net b).foldl max negFltMax := by
  have key : ∀ (l : List (Fin 4)) (acc : ℚ),
      l.foldl
        (fun acc i =>
          match sl b i with
          | none => acc
          | some (b', reward) => max acc ((reward : ℚ) + estimate_value net b'))
        acc =
      (l.filterMap fun i =>
        (sl b i).map fun p => (p.2 : ℚ) + estimate_value net p.1).foldl max acc := by
    intro l
    induction l with
    | nil => intro acc; rfl
    | cons i rest ih =>
      intro acc
      cases hsl : sl b i with
      | none => simp [List.foldl_cons, List.filterMap_cons, hsl, ih]
      | some p => simp [List.foldl_cons, List.filterMap_cons, hsl, ih]
  exact key _ _

theorem foldl_max_le (l : List ℚ) :
    ∀ a : ℚ, a ≤ l.foldl max a ∧ ∀ x ∈ l, x ≤ l.foldl max a := by
  induction l with
  | nil => intro a; simp
  | cons y ys ih =>
    intro a
    refine ⟨le_trans (le_max_left a y) (ih (max a y)).1, ?_⟩
    intro x hx
    rcases List.mem_cons.mp hx with rfl | hx'
    · exact le_trans (le_max_right a x) (ih (max a x)).1
    · exact (ih (max a y)).2 x hx'

theorem foldl_max_mem (l : List ℚ) :
    ∀ a : ℚ, l.foldl max a ∈ l ∨ l.foldl max a = a := by
  induction l with
  | nil => intro a; simp
  | cons y ys ih =>
    intro a
    rcases ih (max a y) with h | h
    · left; exact List.mem_cons_of_mem y h
    · rcases max_choice a y with hm | hm
      · right; rw [List.foldl_cons, h, hm]
      · left; rw [List.foldl_cons, h, hm]; exact List.mem_cons_self y ys

/-- When at least one slide is legal and every legal value is at least
`-FLT_MAX` (as every finite float is), the inner running maximum is a
genuine maximum of the legal slide values. -/
theorem val_max_spec (sl : SlideFn) (net : Fin 4 → ℕ → ℚ) (b : Board2048)
    (hne : legal_slide_vals sl net b ≠ [])
    (hge : ∀ v ∈ legal_slide_vals sl net b, negFltMax ≤ v) :
    val_max_after sl net b ∈ legal_slide_vals sl net b ∧
    ∀ v ∈ legal_slide_vals sl net b, v ≤ val_max_after sl net b := by
  rw [val_max_eq_foldl_max]
  refine ⟨?_, (foldl_max_le (legal_slide_vals sl net b) negFltMax).2⟩
  rcases foldl_max_mem (legal_slide_vals sl net b) negFltMax with h | h
  · exact h
  · obtain ⟨x, hx⟩ := List.exists_mem_of_ne_nil (legal_slide_vals sl net b) hne
    have hxle : x ≤ negFltMax :=
      h ▸ (foldl_max_le (legal_slide_vals sl net b) negFltMax).2 x hx
    have hxeq : x = negFltMax := le_antisymm hxle (hge x hx)
    rw [h, ← hxeq]
    exact hx

/-- C5. `expectation` returns `0` when the board has no empty cell, and
otherwise the sum over the empty positions `p` of
`(0.9 · V₂(p) + 0.1 · V₄(p)) / E`, where `E` is the empty-cell count and
`V₂(p)` (resp. `V₄(p)`) is the maximum over the legal slide directions of
`reward + estimate_value(result)` after placing a 2-tile (resp. 4-tile) at
`p`.  The two hypotheses record, first, that every empty position admits a
legal slide after either placement (otherwise the source's inner maximum
stays at `-FLT_MAX`, which the claim's "maximum over the legal slide
directions" leaves undefined), and second, the float-range bound that every
legal value is at least `-FLT_MAX`. -/
theorem expectation_chance_node_formula (sl : SlideFn) (net : Fin 4 → ℕ → ℚ)
    (after : Board2048) :
    ((∀ p, after p ≠ 0) → expectation sl net after = 0) ∧
    ((∀ p, after p = 0 →
        legal_slide_vals sl net (place2048 after p 1) ≠ [] ∧
        legal_slide_vals sl net (place2048 after p 2) ≠ []) →
      (∀ p : Fin 16, ∀ v ∈ legal_slide_vals sl net (place2048 after p 1) ++
          legal_slide_vals sl net (place2048 after p 2), negFltMax ≤ v) →
      ∃ m2 m4 : Fin 16 → ℚ,
        (∀ p, after p = 0 →
          (m2 p ∈ legal_slide_vals sl net (place2048 after p 1) ∧
            ∀ v ∈ legal_slide_vals sl net (place2048 after p 1), v ≤ m2 p) ∧
          (m4 p ∈ legal_slide_vals sl net (place2048 after p 2) ∧
            ∀ v ∈ legal_slide_vals sl net (place2048 after p 2), v ≤ m4 p)) ∧
        expectation sl net after =
          (((List.finRange 16).filter (fun p => after p = 0)).map
            (fun p => (m2 p * (9 / 10) + m4 p * (1 / 10)) /
              (empty_count after : ℚ))).sum) := by
  have hfold : expectation sl net after =
      0 + (((List.finRange 16).filter (fun p => after p = 0)).map
        (fun pos =>
          (val_max_after sl net (place2048 after pos 1) * (9 / 10) +
            val_max_after sl net (place2048 after pos 2) * (1 / 10)) /
            (empty_count after : ℚ))).sum :=
    foldl_skip_sum after
      (fun pos =>
        (val_max_after sl net (place2048 after pos 1) * (9 / 10) +
          val_max_after sl net (place2048 after pos 2) * (1 / 10)) /
          (empty_count after : ℚ))
      (List.finRange 16) 0
  constructor
  · intro hall
    rw [hfold]
    have hnil : (List.finRange 16).filter (fun p => after p = 0) = [] := by
      apply List.filter_eq_nil_iff.mpr
      intro p _
      simp [hall p]
    rw [hnil]
    simp
  · intro hne hge
    refine ⟨fun p => val_max_after sl net (place2048 after p 1),
            fun p => val_max_after sl net (place2048 after p 2), ?_, ?_⟩
    · intro p hp
      obtain ⟨h1, h2⟩ := hne p hp
      have hg1 : ∀ v ∈ legal_slide_vals sl net (place2048 after p 1),
          negFltMax ≤ v :=
        fun v hv => hge p v (List.mem_append_left _ hv)
      have hg2 : ∀ v ∈ legal_slide_vals sl net (place2048 after p 2),
          negFltMax ≤ v :=
        fun v hv => hge p v (List.mem_append_right _ hv)
      exact ⟨val_max_spec sl net _ h1 hg1, val_max_spec sl net _ h2 hg2⟩
    · rw [hfold, zero_add]

/-- Toy slide capability for the C5 witness: every direction is legal, the
board is unchanged and the merge reward is `0`. -/
def c5slide : SlideFn := fun b _ => some (b, 0)

/-- Zero weight tables for the C5 witness. -/
def c5net : Fin 4 → ℕ → ℚ := fun _ _ => 0

/-- Board with exactly one empty cell (position 0) for the C5 witness. -/
def c5board : Board2048 := fun p => if p = 0 then 0 else 1

/-- Fully occupied board for the C5 witness. -/
def c5full : Board2048 := fun _ => 1

/-- With zero weight tables the network value of any board is `0`. -/
theorem c5_estimate_zero (b : Board2048) : estimate_value c5net b = 0 := by
  simp [estimate_value, net_lookups, c5net]

/-- With the toy capability every direction contributes the legal value
`0`. -/
theorem c5_legal_vals (b : Board2048) :
    legal_slide_vals c5slide c5net b = [0, 0, 0, 0] := by
  simp [legal_slide_vals, c5slide, c5_estimate_zero]
  rfl

/-- C5 witness: the chance-node formula evaluated at the fully occupied
board (expectation `0`) and at the one-empty-cell board with the toy slide
capability and zero weights. -/
theorem expectation_chance_node_formula_witness :
    expectation c5slide c5net c5full = 0 ∧
    (∃ m2 m4 : Fin 16 → ℚ,
      (∀ p, c5board p = 0 →
        (m2 p ∈ legal_slide_vals c5slide c5net (place2048 c5board p 1) ∧
          ∀ v ∈ legal_slide_vals c5slide c5net (place2048 c5board p 1), v ≤ m2 p) ∧
        (m4 p ∈ legal_slide_vals c5slide c5net (place2048 c5board p 2) ∧
          ∀ v ∈ legal_slide_vals c5slide c5net (place2048 c5board p 2), v ≤ m4 p)) ∧
      expectation c5slide c5net c5board =
        (((List.finRange 16).filter (fun p => c5board p = 0)).map
          (fun p => (m2 p * (9 / 10) + m4 p * (1 / 10)) /
            (empty_count c5board : ℚ))).sum) :=
  ⟨(expectation_chance_node_formula c5slide c5net c5full).1
      (by intro p; simp [c5full]),
   (expectation_chance_node_formula c5slide c5net c5board).2
      (by
        intro p hp
        rw [c5_legal_vals, c5_legal_vals]
        exact ⟨by simp, by simp⟩)
      (by
        intro p v hv
        rw [c5_legal_vals, c5_legal_vals] at hv
        have hv0 : v = 0 := by simpa using hv
        rw [hv0]
        norm_num [negFltMax])⟩

/-- Running state of the direction loop of the expectimax
`player::take_action` (lines 99–123): the best value seen (`val_max`), its
merge reward (`r_max`) and its direction (`op`, `-1` while no direction
qualified). -/
structure TAState where
  val_max : ℚ
  r_max : ℤ
  op : ℤ

/-- One direction of the loop: an illegal slide (`reward == -1`) is
skipped; otherwise `v = reward + expectation(after)` replaces the running
best exactly when strictly greater (`v > val_max`), so the first maximum
wins. -/
def ta_step (sl : SlideFn) (net : Fin 4 → ℕ → ℚ) (before : Board2048)
    (st : TAState) (i : Fin 4) : TAState :=
  match sl before i with
  | none => st
  | some (b, reward) =>
    if st.val_max < (reward : ℚ) + expectation sl net b then
      ⟨(reward : ℚ) + expectation sl net b, (reward : ℤ), (i : ℤ)⟩
    else st

/-- The expectimax `player::take_action` (lines 99–123): fold the four
directions over the initial state `(-FLT_MAX, INT_MIN, -1)`.  The source
returns `action::slide(op)` and writes `val_max`/`r_max` to its out
parameters; `action.h` is not among the sources, and per the spec (§4.A4,
§7) `op = -1` stands for the null action. -/
def take_action_2048 (sl : SlideFn) (net : Fin 4 → ℕ → ℚ)
    (before : Board2048) : TAState :=
  (List.finRange 4).foldl (ta_step sl net before) ⟨negFltMax, -2147483648, -1⟩

/-- The candidate value of a direction: `reward + expectation(after)` when
the slide is legal, nothing otherwise. -/
def val_of (sl : SlideFn) (net : Fin 4 → ℕ → ℚ) (before : Board2048)
    (d : Fin 4) : Option ℚ :=
  (sl before d).map fun p => (p.2 : ℚ) + expectation sl net p.1

/-- Characterization of the direction fold over any strictly increasing
direction list whose legal values exceed `-FLT_MAX`: either no direction
was legal and the state is still the initial one, or the state holds the
first maximum of the legal candidate values. -/
theorem ta_fold_char (sl : SlideFn) (net : Fin 4 → ℕ → ℚ) (before : Board2048) :
    ∀ l : List (Fin 4), l.Pairwise (· < ·) →
      (∀ d ∈ l, ∀ v, val_of sl net before d = some v → negFltMax < v) →
      ((l.foldl (ta_step sl net before) ⟨negFltMax, -2147483648, -1⟩).op = -1 ∧
        (l.foldl (ta_step sl net before) ⟨negFltMax, -2147483648, -1⟩).val_max =
          negFltMax ∧
        ∀ d ∈ l, val_of sl net before d = none) ∨
      (∃ db ∈ l, ∃ vb,
        (l.foldl (ta_step sl net before) ⟨negFltMax, -2147483648, -1⟩).op = (db : ℤ) ∧
        (l.foldl (ta_step sl net before) ⟨negFltMax, -2147483648, -1⟩).val_max = vb ∧
        val_of sl net before db = some vb ∧
        (∀ d ∈ l, ∀ v, val_of sl net before d = some v → v ≤ vb) ∧
        (∀ d ∈ l, ∀ v, val_of sl net before d = some v → v = vb → db ≤ d)) := by
  intro l
  induction l using List.reverseRecOn with
  | nil =>
    intro _ _
    left
    exact ⟨rfl, rfl, by simp⟩
  | append_singleton xs a ih =>
    intro hpw hgt
    have hpw' : xs.Pairwise (· < ·) := (List.pairwise_append.mp hpw).1
    have hlt : ∀ x ∈ xs, x < a := by
      have h := (List.pairwise_append.mp hpw).2.2
      intro x hx
      exact h x hx a (by simp)
    have hgt' : ∀ d ∈ xs, ∀ v, val_of sl net before d = some v → negFltMax < v :=
      fun d hd => hgt d (List.mem_append_left _ hd)
    simp only [List.foldl_append, List.foldl_cons, List.foldl_nil]
    rcases ih hpw' hgt' with ⟨h1, h2, h3⟩ | ⟨db, hdb, vb, h1, h2, h3, h4, h5⟩
    · cases hsl : sl before a with
      | none =>
        have hstep : ta_step sl net before
            (xs.foldl (ta_step sl net before) ⟨negFltMax, -2147483648, -1⟩) a =
            xs.foldl (ta_step sl net before) ⟨negFltMax, -2147483648, -1⟩ := by
          simp [ta_step, hsl]
        rw [hstep]
        left
        refine ⟨h1, h2, ?_⟩
        intro d hd
        rcases List.mem_append.mp hd with hd' | hd'
        · exact h3 d hd'
        · have hda : d = a := by simpa using hd'
          subst hda
          simp [val_of, hsl]
      | some p =>
        obtain ⟨b, reward⟩ := p
        have hv : val_of sl net before a =
            some ((reward : ℚ) + expectation sl net b) := by
          simp [val_of, hsl]
        have hgt1 : negFltMax < (reward : ℚ) + expectation sl net b :=
          hgt a (by simp) _ hv
        have hstep : ta_step sl net before
            (xs.foldl (ta_step sl net before) ⟨negFltMax, -2147483648, -1⟩) a =
            ⟨(reward : ℚ) + expectation sl net b, (reward : ℤ), (a : ℤ)⟩ := by
          simp only [ta_step, hsl, h2]
          rw [if_pos hgt1]
        rw [hstep]
        right
        refine ⟨a, by simp, (reward : ℚ) + expectation sl net b, rfl, rfl, hv, ?_, ?_⟩
        · intro d hd v hvd
          rcases List.mem_append.mp hd with hd' | hd'
          · exact absurd hvd (by simp [h3 d hd'])
          · have hda : d = a := by simpa using hd'
            subst hda
            rw [hv] at hvd
            exact le_of_eq (Option.some.inj hvd).symm
        · intro d hd v hvd _
          rcases List.mem_append.mp hd with hd' | hd'
          · exact absurd hvd (by simp [h3 d hd'])
          · have hda : d = a := by simpa using hd'
            subst hda
            exact le_refl _
    · cases hsl : sl before a with
      | none =>
        have hstep : ta_step sl net before
            (xs.foldl (ta_step sl net before) ⟨negFltMax, -2147483648, -1⟩) a =
            xs.foldl (ta_step sl net before) ⟨negFltMax, -2147483648, -1⟩ := by
          simp [ta_step, hsl]
        rw [hstep]
        right
        refine ⟨db, List.mem_append_left _ hdb, vb, h1, h2, h3, ?_, ?_⟩
        · intro d hd v hvd
          rcases List.mem_append.mp hd with hd' | hd'
          · exact h4 d hd' v hvd
          · have hda : d = a := by simpa using hd'
            subst hda
            exact absurd hvd (by simp [val_of, hsl])
        · intro d hd v hvd hveq
          rcases List.mem_append.mp hd with hd' | hd'
          · exact h5 d hd' v hvd hveq
          · have hda : d = a := by simpa using hd'
            subst hda
            exact absurd hvd (by simp [val_of, hsl])
      | some p =>
        obtain ⟨b, reward⟩ := p
        have hv : val_of sl net before a =
            some ((reward : ℚ) + expectation sl net b) := by
          simp [val_of, hsl]
        by_cases hcmp :
            (xs.foldl (ta_step sl net before) ⟨negFltMax, -2147483648, -1⟩).val_max <
              (reward : ℚ) + expectation sl net b
        · have hstep : ta_step sl net before
              (xs.foldl (ta_step sl net before) ⟨negFltMax, -2147483648, -1⟩) a =
              ⟨(reward : ℚ) + expectation sl net b, (reward : ℤ), (a : ℤ)⟩ := by
            simp only [ta_step, hsl]
            rw [if_pos hcmp]
          rw [hstep]
          right
          have hvblt : vb < (reward : ℚ) + expectation sl net b := h2 ▸ hcmp
          refine ⟨a, by simp, (reward : ℚ) + expectation sl net b, rfl, rfl, hv, ?_, ?_⟩
          · intro d hd v hvd
            rcases List.mem_append.mp hd with hd' | hd'
            · exact le_of_lt (lt_of_le_of_lt (h4 d hd' v hvd) hvblt)
            · have hda : d = a := by simpa using hd'
              subst hda
              rw [hv] at hvd
              exact le_of_eq (Option.some.inj hvd).symm
          · intro d hd v hvd hveq
            rcases List.mem_append.mp hd with hd' | hd'
            · exfalso
              have hle : v ≤ vb := h4 d hd' v hvd
              rw [hveq] at hle
              exact absurd hle (not_le.mpr hvblt)
            · have hda : d = a := by simpa using hd'
              subst hda
              exact le_refl _
        · have hstep : ta_step sl net before
              (xs.foldl (ta_step sl net before) ⟨negFltMax, -2147483648, -1⟩) a =
              xs.foldl (ta_step sl net before) ⟨negFltMax, -2147483648, -1⟩ := by
            simp only [ta_step, hsl]
            rw [if_neg hcmp]
          rw [hstep]
          right
          have hale : (reward : ℚ) + expectation sl net b ≤ vb := by
            have := not_lt.mp hcmp
            rw [h2] at this
            exact this
          refine ⟨db, List.mem_append_left _ hdb, vb, h1, h2, h3, ?_, ?_⟩
          · intro d hd v hvd
            rcases List.mem_append.mp hd with hd' | hd'
            · exact h4 d hd' v hvd
            · have hda : d = a := by simpa using hd'
              subst hda
              rw [hv] at hvd
              rw [← Option.some.inj hvd]
              exact hale
          · intro d hd v hvd hveq
            rcases List.mem_append.mp hd with hd' | hd'
            · exact h5 d hd' v hvd hveq
            · have hda : d = a := by simpa using hd'
              subst hda
              exact le_of_lt (hlt db hdb)

/-- C6. When every slide of the before-board is illegal, the expectimax
`take_action` keeps `op = -1` — per the spec the null action; when at least
one direction is legal (and every legal candidate value exceeds `-FLT_MAX`,
as every finite float does), it returns a legal direction whose
`reward + expectation` value is maximal, with ties broken by the lowest
direction index (the running best is replaced only on strictly greater
values, so the first maximum wins). -/
theorem take_action_2048_argmax (sl : SlideFn) (net : Fin 4 → ℕ → ℚ)
    (before : Board2048) :
    ((∀ d : Fin 4, sl before d = none) →
      (take_action_2048 sl net before).op = -1) ∧
    ((∀ d : Fin 4, ∀ v, val_of sl net before d = some v → negFltMax < v) →
      ∀ d0 : Fin 4, sl before d0 ≠ none →
        ∃ db : Fin 4, ∃ vb,
          (take_action_2048 sl net before).op = (db : ℤ) ∧
          (take_action_2048 sl net before).val_max = vb ∧
          val_of sl net before db = some vb ∧
          (∀ d : Fin 4, ∀ v, val_of sl net before d = some v → v ≤ vb) ∧
          (∀ d : Fin 4, ∀ v, val_of sl net before d = some v → v = vb → db ≤ d)) := by
  constructor
  · intro hall
    have hskip : ∀ (l : List (Fin 4)) (st : TAState),
        (∀ d ∈ l, sl before d = none) →
        l.foldl (ta_step sl net before) st = st := by
      intro l
      induction l with
      | nil => intro st _; rfl
      | cons i rest ih =>
        intro st hl
        rw [List.foldl_cons]
        have hstep : ta_step sl net before st i = st := by
          simp [ta_step, hl i (List.mem_cons_self i rest)]
        rw [hstep]
        exact ih _ (fun d hd => hl d (List.mem_cons_of_mem i hd))
    rw [take_action_2048, hskip (List.finRange 4) _ (fun d _ => hall d)]
  · intro hgt d0 hd0
    rcases ta_fold_char sl net before (List.finRange 4) (by decide)
        (fun d _ => hgt d) with ⟨h1, h2, h3⟩ | ⟨db, _, vb, h1, h2, h3, h4, h5⟩
    · exfalso
      have hn := h3 d0 (List.mem_finRange d0)
      cases hsl : sl before d0 with
      | none => exact hd0 hsl
      | some p =>
        rw [val_of, hsl] at hn
        simp at hn
    · exact ⟨db, vb, h1, h2, h3,
        fun d v hv => h4 d (List.mem_finRange d) v hv,
        fun d v hv he => h5 d (List.mem_finRange d) v hv he⟩

/-- Slide capability with no legal direction, for the C6 witness. -/
def c6none : SlideFn := fun _ _ => none

/-- Slide capability for the C6 witness: direction 0 is legal with reward
5, direction 1 with reward 3, the rest are illegal; the board is
unchanged. -/
def c6slide : SlideFn := fun b d =>
  if d = 0 then some (b, 5) else if d = 1 then some (b, 3) else none

/-- Fully occupied board for the C6 witness, so that the chance node
contributes nothing. -/
def c6board : Board2048 := fun _ => 1

theorem c6_expectation_zero : expectation c6slide c5net c6board = 0 := by
  have hfold : expectation c6slide c5net c6board =
      0 + (((List.finRange 16).filter (fun p => c6board p = 0)).map
        (fun pos =>
          (val_max_after c6slide c5net (place2048 c6board pos 1) * (9 / 10) +
            val_max_after c6slide c5net (place2048 c6board pos 2) * (1 / 10)) /
            (empty_count c6board : ℚ))).sum :=
    foldl_skip_sum c6board
      (fun pos =>
        (val_max_after c6slide c5net (place2048 c6board pos 1) * (9 / 10) +
          val_max_after c6slide c5net (place2048 c6board pos 2) * (1 / 10)) /
          (empty_count c6board : ℚ))
      (List.finRange 16) 0
  have hnil : (List.finRange 16).filter (fun p => c6board p = 0) = [] :=
    List.filter_eq_nil_iff.mpr (by intro p _; simp [c6board])
  rw [hfold, hnil]
  simp

/-- C6 witness: the argmax characterization evaluated on a board with no
legal slide (null action) and on the toy capability with candidate values
`5` and `3`, where the returned direction is `0`. -/
theorem take_action_2048_argmax_witness :
    (take_action_2048 c6none c5net c6board).op = -1 ∧
    (∃ db : Fin 4, ∃ vb,
      (take_action_2048 c6slide c5net c6board).op = (db : ℤ) ∧
      (take_action_2048 c6slide c5net c6board).val_max = vb ∧
      val_of c6slide c5net c6board db = some vb ∧
      (∀ d : Fin 4, ∀ v, val_of c6slide c5net c6board d = some v → v ≤ vb) ∧
      (∀ d : Fin 4, ∀ v, val_of c6slide c5net c6board d = some v → v = vb → db ≤ d)) :=
  ⟨(take_action_2048_argmax c6none c5net c6board).1 (fun _ => rfl),
   (take_action_2048_argmax c6slide c5net c6board).2
     (by
       intro d v hv
       fin_cases d
       · rw [val_of] at hv
         simp [c6slide, c6_expectation_zero] at hv
         subst hv
         norm_num [negFltMax]
       · rw [val_of] at hv
         simp [c6slide, c6_expectation_zero] at hv
         subst hv
         norm_num [negFltMax]
       · rw [val_of] at hv
         simp [c6slide] at hv
       · rw [val_of] at hv
         simp [c6slide] at hv)
     0 (by simp [c6slide])⟩
